import Mathlib

/-!
# Verification of the Vex PDF-extraction scripts

Shallow embedding of the three scripts `extract_prd.py`, `extract_prd2.py`
and `extract_prd_pages.py`.  Each script opens a PDF, obtains the ordered
list of per-page extracted texts, and writes them to disk in one of three
layouts.  Text is embedded as `List Char`; a file system is a map from
file names to optional contents; the sequential `for` loops become
accumulator-passing recursions; the page counter of `enumerate` becomes an
explicit index argument.  Python's decimal formatting of `i+1` inside
f-strings is embedded by the executable renderer `natDecimal`.
-/

namespace Vex

/-- Extracted text (and file names): a sequence of characters. -/
abbrev Text := List Char

/-! ## Decimal rendering of page numbers

Models Python's decimal formatting of a nonnegative integer, as used in
`f'=== PAGE {i+1} ==='` and `f'prd_page_{i+1}.md'`. -/

/-- The character for a single decimal digit (0–9). -/
def digitChar10 : Nat → Char
  | 0 => '0' | 1 => '1' | 2 => '2' | 3 => '3' | 4 => '4'
  | 5 => '5' | 6 => '6' | 7 => '7' | 8 => '8' | 9 => '9'
  | _ => '*'

/-- Fuel-driven decimal renderer: prepends the digits of `n` to `acc`.
The fuel only bounds the recursion depth; `fuel > n` is always enough. -/
def natDecimalFuel : Nat → Nat → List Char → List Char
  | 0, _, acc => acc
  | fuel + 1, n, acc =>
    if n < 10 then digitChar10 n :: acc
    else natDecimalFuel fuel (n / 10) (digitChar10 (n % 10) :: acc)

/-- Decimal representation of `n`, most significant digit first. -/
def natDecimal (n : Nat) : Text := natDecimalFuel (n + 1) n []

/-- Decimal parser (accumulator form): folds digits into a number. -/
def parseDigitsAcc : Nat → List Char → Nat
  | a, [] => a
  | a, c :: cs => parseDigitsAcc (10 * a + (c.toNat - 48)) cs

/-- Decimal parser for a digit string. -/
def parseDigits (s : List Char) : Nat := parseDigitsAcc 0 s

/-! ## Literal markers appearing in the scripts -/

/-- The literal page-break marker `---PAGE BREAK---` of `extract_prd.py`. -/
def MARKER : Text :=
  ['-','-','-','P','A','G','E',' ','B','R','E','A','K','-','-','-']

/-- The separator `'\n\n---PAGE BREAK---\n\n'` written after every page
by `extract_prd.py`. -/
def SEP : Text := '\n' :: '\n' :: (MARKER ++ ['\n', '\n'])

/-- The fixed header opening `=== PAGE ` of `extract_prd2.py`. -/
def HP : Text := ['=','=','=',' ','P','A','G','E',' ']

/-- The fixed header closing ` ===` of `extract_prd2.py`. -/
def TAIL4 : Text := [' ','=','=','=']

/-- The full header `'\n=== PAGE {n}===\n'`-style line (with the decimal
page number `n`) written before each page by `extract_prd2.py`. -/
def headerB (n : Nat) : Text :=
  '\n' :: ((HP ++ natDecimal n ++ TAIL4) ++ ['\n'])

/-- The byte-order mark U+FEFF: the `utf-8-sig` encoding of
`extract_prd_pages.py` emits it before each file's text. -/
def BOM : Text := ['﻿']

/-- File name `prd_page_{n}.md` used by `extract_prd_pages.py`. -/
def pageFileName (n : Nat) : Text :=
  ['p','r','d','_','p','a','g','e','_'] ++ natDecimal n ++ ['.','m','d']

/-- Opening a file in mode `'w'` truncates it: the previous content is
discarded and writing starts from an empty buffer. -/
def openTruncate (old : Text) : Text :=
  let _ := old
  []

/-! ## Variant A: `extract_prd.py` (single file, page-break separators) -/

/-- The `for page in reader.pages:` loop of `extract_prd.py`: each
iteration appends `text + '\n\n---PAGE BREAK---\n\n'` to the open file. -/
def writeLoopA (buf : Text) : List Text → Text
  | [] => buf
  | t :: ts => writeLoopA (buf ++ (t ++ SEP)) ts

/-- Whole run of `extract_prd.py` on a document whose pages extract to
`ts`, with `old` the previous content of the destination file. -/
def extract_prd (old : Text) (ts : List Text) : Text :=
  writeLoopA (openTruncate old) ts

/-- Modelled from the spec: variant A output is the concatenation, in page
order, of `<page text> + '\n\n---PAGE BREAK---\n\n'`. -/
def variantA_spec : List Text → Text
  | [] => []
  | t :: ts => (t ++ SEP) ++ variantA_spec ts

/-! ## Variant B: `extract_prd2.py` (single file, per-page headers) -/

/-- The `for i, page in enumerate(reader.pages):` loop of
`extract_prd2.py`: each iteration appends the header line for page `i+1`
and then the raw page text. -/
def writeLoopB (buf : Text) (i : Nat) : List Text → Text
  | [] => buf
  | t :: ts => writeLoopB ((buf ++ headerB (i + 1)) ++ t) (i + 1) ts

/-- Whole run of `extract_prd2.py` on pages `ts`, with `old` the previous
content of the destination file. -/
def extract_prd2 (old : Text) (ts : List Text) : Text :=
  writeLoopB (openTruncate old) 0 ts

/-- Modelled from the spec: variant B output is the concatenation, in page
order, of `'\n=== PAGE <n> ===\n' + <page text>` for 1-based `n`, with no
trailing separator after the last page. -/
def variantB_specFrom (n : Nat) : List Text → Text
  | [] => []
  | t :: ts => (headerB n ++ t) ++ variantB_specFrom (n + 1) ts

/-- Variant B spec-side output, page numbers starting at 1. -/
def variantB_spec (ts : List Text) : Text := variantB_specFrom 1 ts

/-! ## Variant C: `extract_prd_pages.py` (one file per page) -/

/-- A directory: a map from file names to contents (`none` = absent). -/
def FS : Type := Text → Option Text

/-- Writing a file: replaces (or creates) the named entry, leaving every
other name untouched. -/
def fsWrite (fs : FS) (name content : Text) : FS :=
  fun k => if k = name then some content else fs k

/-- The bytes of a per-page file: the `utf-8-sig` byte-order mark followed
by the page's raw extracted text. -/
def pageFileContent (t : Text) : Text := BOM ++ t

/-- The `for i, page in enumerate(reader.pages):` loop of
`extract_prd_pages.py`: each iteration writes page `i+1`'s text to
`prd_page_{i+1}.md`. -/
def writeLoopC (fs : FS) (i : Nat) : List Text → FS
  | [] => fs
  | t :: ts =>
    writeLoopC (fsWrite fs (pageFileName (i + 1)) (pageFileContent t)) (i + 1) ts

/-- Whole run of `extract_prd_pages.py` on pages `ts` against the
destination directory `fs`. -/
def extract_prd_pages (fs : FS) (ts : List Text) : FS :=
  writeLoopC fs 0 ts

/-! ## Occurrence counting and header scanning (observation functions) -/

/-- Number of positions of `s` at which the pattern `p` occurs (as a
contiguous substring; overlapping occurrences all count). -/
def countOcc (p : Text) : Text → Nat
  | [] => 0
  | c :: s => (if p.isPrefixOf (c :: s) then 1 else 0) + countOcc p s

/-- Does a header of the exact shape `=== PAGE <digits> ===` start at the
head of `s`?  If so, return the parsed page number. -/
def headerAt (s : Text) : Option Nat :=
  if HP.isPrefixOf s then
    if ((s.drop 9).takeWhile Char.isDigit) = [] then none
    else if TAIL4.isPrefixOf
        ((s.drop 9).drop ((s.drop 9).takeWhile Char.isDigit).length) then
      some (parseDigits ((s.drop 9).takeWhile Char.isDigit))
    else none
  else none

/-- All header matches `=== PAGE <k> ===` in `s`, in left-to-right
position order, as their parsed page numbers. -/
def findHeaders : Text → List Nat
  | [] => []
  | c :: s =>
    (match headerAt (c :: s) with
     | some n => [n]
     | none => []) ++ findHeaders s

/-! ## Fallible models (error propagation)

A per-page step that can fail (the library raising during
`extract_text()`, or the write to the destination failing) is embedded as
an `Except`: the loop has no handler, so the first failure stops the run,
and whatever was already written stays written. -/

/-- Loop of `extract_prd.py` where each page step may fail: returns the
file content accumulated so far and the uncaught error, if any. -/
def runAEx (buf : Text) : List (Except Text Text) → Text × Option Text
  | [] => (buf, none)
  | Except.error e :: _ => (buf, some e)
  | Except.ok t :: rest => runAEx (buf ++ (t ++ SEP)) rest

/-- Loop of `extract_prd_pages.py` where each page step may fail: returns
the directory state reached and the uncaught error, if any. -/
def runCEx (fs : FS) (i : Nat) : List (Except Text Text) → FS × Option Text
  | [] => (fs, none)
  | Except.error e :: _ => (fs, some e)
  | Except.ok t :: rest =>
    runCEx (fsWrite fs (pageFileName (i + 1)) (pageFileContent t)) (i + 1) rest

/-! ## Properties of the decimal renderer -/

theorem natDecimalFuel_append (fuel : Nat) :
    ∀ n acc, n < fuel →
      natDecimalFuel fuel n acc = natDecimalFuel fuel n [] ++ acc := by
  induction fuel with
  | zero => intro n acc h; omega
  | succ fuel ih =>
    intro n acc h
    simp only [natDecimalFuel]
    by_cases h10 : n < 10
    · simp [h10]
    · have hlt : n / 10 < fuel := by omega
      simp only [if_neg h10]
      rw [ih (n / 10) (digitChar10 (n % 10) :: acc) hlt,
        ih (n / 10) [digitChar10 (n % 10)] hlt, List.append_assoc,
        List.singleton_append]

theorem natDecimalFuel_fuel_irrel (f₁ : Nat) :
    ∀ f₂ n acc, n < f₁ → n < f₂ →
      natDecimalFuel f₁ n acc = natDecimalFuel f₂ n acc := by
  induction f₁ with
  | zero => intro f₂ n acc h; omega
  | succ f₁ ih =>
    intro f₂ n acc h₁ h₂
    cases f₂ with
    | zero => omega
    | succ f₂ =>
      simp only [natDecimalFuel]
      by_cases h10 : n < 10
      · simp [h10]
      · simp only [if_neg h10]
        exact ih f₂ (n / 10) _ (by omega) (by omega)

theorem natDecimal_of_lt (n : Nat) (h : n < 10) :
    natDecimal n = [digitChar10 n] := by
  simp [natDecimal, natDecimalFuel, h]

theorem natDecimal_of_ge (n : Nat) (h : 10 ≤ n) :
    natDecimal n = natDecimal (n / 10) ++ [digitChar10 (n % 10)] := by
  have h10 : ¬ n < 10 := by omega
  show natDecimalFuel (n + 1) n [] = _
  simp only [natDecimalFuel, if_neg h10]
  rw [natDecimalFuel_append n (n / 10) _ (by omega),
    natDecimalFuel_fuel_irrel n (n / 10 + 1) (n / 10) [] (by omega) (by omega)]
  rfl

theorem natDecimal_ne_nil (n : Nat) : natDecimal n ≠ [] := by
  by_cases h : n < 10
  · rw [natDecimal_of_lt n h]; simp
  · rw [natDecimal_of_ge n (by omega)]; simp

theorem natDecimal_digits (n : Nat) :
    ∀ c ∈ natDecimal n, c.isDigit = true := by
  induction n using Nat.strong_induction_on with
  | _ n ih =>
    have hd : ∀ m, m < 10 → (digitChar10 m).isDigit = true := by decide
    by_cases h : n < 10
    · rw [natDecimal_of_lt n h]
      intro c hc
      rw [List.mem_singleton] at hc
      subst hc; exact hd n h
    · rw [natDecimal_of_ge n (by omega)]
      intro c hc
      rcases List.mem_append.mp hc with hc | hc
      · exact ih (n / 10) (by omega) c hc
      · rw [List.mem_singleton] at hc
        subst hc; exact hd (n % 10) (by omega)

theorem parseDigitsAcc_singleton (a : Nat) (d : Char) :
    parseDigitsAcc a [d] = 10 * a + (d.toNat - 48) := rfl

theorem parseDigitsAcc_append (xs : List Char) :
    ∀ ys a, parseDigitsAcc a (xs ++ ys) = parseDigitsAcc (parseDigitsAcc a xs) ys := by
  induction xs with
  | nil => intro ys a; rfl
  | cons c cs ih =>
    intro ys a
    rw [List.cons_append]
    show parseDigitsAcc (10 * a + (c.toNat - 48)) (cs ++ ys) = _
    rw [ih]
    rfl

theorem parseDigitsAcc_natDecimal (n : Nat) :
    ∀ a, parseDigitsAcc a (natDecimal n) =
      a * 10 ^ (natDecimal n).length + n := by
  induction n using Nat.strong_induction_on with
  | _ n ih =>
    intro a
    have hd : ∀ m, m < 10 → (digitChar10 m).toNat - 48 = m := by decide
    by_cases h : n < 10
    · rw [natDecimal_of_lt n h, parseDigitsAcc_singleton, hd n h]
      have h1 : ([digitChar10 n] : List Char).length = 1 := rfl
      rw [h1, pow_one]
      omega
    · rw [natDecimal_of_ge n (by omega), parseDigitsAcc_append,
        parseDigitsAcc_singleton, ih (n / 10) (by omega) a, hd (n % 10) (by omega),
        List.length_append, List.length_singleton]
      have e : a * 10 ^ ((natDecimal (n / 10)).length + 1) =
          10 * (a * 10 ^ (natDecimal (n / 10)).length) := by ring
      rw [e]
      omega

theorem parseDigits_natDecimal (n : Nat) : parseDigits (natDecimal n) = n := by
  rw [parseDigits, parseDigitsAcc_natDecimal n 0]
  simp

theorem natDecimal_injective : Function.Injective natDecimal := by
  intro m n h
  have := congrArg parseDigits h
  rwa [parseDigits_natDecimal, parseDigits_natDecimal] at this

/-! ## Prefix-matching helpers

Occurrence counting hinges on one structural fact: a pattern that does not
contain a given character cannot reach across that character, so matching
against `xs ++ c :: b` is the same as matching against `xs` alone. -/

theorem isPrefixOf_cons_cons (q c : Char) (p' s : List Char) :
    (q :: p').isPrefixOf (c :: s) = (q == c && p'.isPrefixOf s) := rfl

theorem isPrefixOf_nil_right (q : Char) (p' : List Char) :
    (q :: p').isPrefixOf [] = false := rfl

theorem isPrefixOf_nil_left (s : List Char) : List.isPrefixOf [] s = true := by
  cases s <;> rfl

theorem isPrefixOf_append_cons (p : List Char) (c : Char) (hc : c ∉ p) :
    ∀ xs b, p.isPrefixOf (xs ++ c :: b) = p.isPrefixOf xs := by
  induction p with
  | nil => intro xs b; rw [isPrefixOf_nil_left, isPrefixOf_nil_left]
  | cons q p' ih =>
    intro xs b
    have hq : q ≠ c := fun h => hc (h ▸ List.mem_cons_self q p')
    have hc' : c ∉ p' := fun h => hc (List.mem_cons_of_mem q h)
    cases xs with
    | nil =>
      rw [List.nil_append, isPrefixOf_cons_cons, isPrefixOf_nil_right]
      have : (q == c) = false := beq_eq_false_iff_ne.mpr hq
      rw [this, Bool.false_and]
    | cons x xs' =>
      rw [List.cons_append, isPrefixOf_cons_cons, isPrefixOf_cons_cons,
        ih hc' xs' b]

theorem isPrefixOf_append_self (p : List Char) :
    ∀ x, p.isPrefixOf (p ++ x) = true := by
  induction p with
  | nil => intro x; rw [isPrefixOf_nil_left]
  | cons q p' ih =>
    intro x
    rw [List.cons_append, isPrefixOf_cons_cons, beq_self_eq_true, Bool.true_and,
      ih x]

theorem isPrefixOf_refl (p : List Char) : p.isPrefixOf p = true := by
  have := isPrefixOf_append_self p []
  rwa [List.append_nil] at this

theorem eq_append_of_isPrefixOf (p : List Char) :
    ∀ s, p.isPrefixOf s = true → ∃ r, s = p ++ r := by
  induction p with
  | nil => intro s _; exact ⟨s, rfl⟩
  | cons q p' ih =>
    intro s h
    cases s with
    | nil => rw [isPrefixOf_nil_right] at h; exact absurd h (by simp)
    | cons x s' =>
      rw [isPrefixOf_cons_cons, Bool.and_eq_true, beq_iff_eq] at h
      obtain ⟨r, hr⟩ := ih s' h.2
      exact ⟨r, by rw [List.cons_append, ← hr, h.1]⟩

theorem takeWhile_append_cons (p : Char → Bool) (c : Char) (hc : p c = false) :
    ∀ u v, (u ++ c :: v).takeWhile p = u.takeWhile p := by
  intro u v
  induction u with
  | nil => simp [List.takeWhile_cons, hc]
  | cons x u' ih =>
    rw [List.cons_append, List.takeWhile_cons, List.takeWhile_cons, ih]

theorem takeWhile_of_all (p : Char → Bool) (u : List Char)
    (h : ∀ c ∈ u, p c = true) : u.takeWhile p = u :=
  List.takeWhile_eq_self_iff.mpr h

theorem length_takeWhile_le' (p : Char → Bool) :
    ∀ u : List Char, (u.takeWhile p).length ≤ u.length := by
  intro u
  induction u with
  | nil => simp
  | cons x u' ih =>
    rw [List.takeWhile_cons]
    by_cases h : p x
    · simp only [h, if_true, List.length_cons]
      omega
    · simp only [Bool.not_eq_true] at h
      simp [h]

/-! ## Occurrence counting -/

theorem countOcc_nil (p : Text) : countOcc p [] = 0 := rfl

theorem countOcc_cons (p : Text) (c : Char) (s : Text) :
    countOcc p (c :: s) =
      (if p.isPrefixOf (c :: s) then 1 else 0) + countOcc p s := rfl

/-- A pattern avoiding the character `c` matches across `a ++ c :: b`
exactly where it matches in `a` or in `b`. -/
theorem countOcc_append_cons (p : Text) (hne : p ≠ []) (c : Char) (hc : c ∉ p) :
    ∀ a b, countOcc p (a ++ c :: b) = countOcc p a + countOcc p b := by
  intro a b
  induction a with
  | nil =>
    rw [List.nil_append, countOcc_cons, countOcc_nil]
    obtain ⟨q, p', rfl⟩ : ∃ q p', p = q :: p' := by
      cases p with
      | nil => exact absurd rfl hne
      | cons q p' => exact ⟨q, p', rfl⟩
    have hq : q ≠ c := fun h => hc (h ▸ List.mem_cons_self q p')
    rw [isPrefixOf_cons_cons, beq_eq_false_iff_ne.mpr hq, Bool.false_and]
    simp
  | cons x a' ih =>
    rw [List.cons_append, countOcc_cons, countOcc_cons, ih,
      show x :: (a' ++ c :: b) = (x :: a') ++ c :: b from rfl,
      isPrefixOf_append_cons p c hc (x :: a') b]
    omega

theorem countOcc_marker_marker : countOcc MARKER MARKER = 1 := by decide

/-- Appending one `<page text><separator>` block contributes the page's own
marker occurrences plus exactly one more (the separator's). -/
theorem countOcc_marker_block (t rest : Text) :
    countOcc MARKER ((t ++ SEP) ++ rest) =
      countOcc MARKER t + (1 + countOcc MARKER rest) := by
  have hne : MARKER ≠ [] := by decide
  have hnl : '\n' ∉ MARKER := by decide
  have hsep : (t ++ SEP) ++ rest =
      t ++ '\n' :: ('\n' :: (MARKER ++ '\n' :: '\n' :: rest)) := by
    simp [SEP]
  rw [hsep, countOcc_append_cons MARKER hne '\n' hnl t,
    show ('\n' :: (MARKER ++ '\n' :: '\n' :: rest)) =
      [] ++ '\n' :: (MARKER ++ '\n' :: '\n' :: rest) from rfl,
    countOcc_append_cons MARKER hne '\n' hnl [] (MARKER ++ '\n' :: '\n' :: rest),
    countOcc_nil,
    show MARKER ++ '\n' :: '\n' :: rest = MARKER ++ '\n' :: ('\n' :: rest) from rfl,
    countOcc_append_cons MARKER hne '\n' hnl MARKER ('\n' :: rest),
    show ('\n' :: rest) = [] ++ '\n' :: rest from rfl,
    countOcc_append_cons MARKER hne '\n' hnl [] rest,
    countOcc_nil, countOcc_marker_marker]
  omega

/-- Marker count of the variant A layout: one occurrence per page, plus
whatever the page texts themselves contain. -/
theorem countOcc_marker_variantA (ts : List Text)
    (h : ∀ t ∈ ts, countOcc MARKER t = 0) :
    countOcc MARKER (variantA_spec ts) = ts.length := by
  induction ts with
  | nil => rfl
  | cons t ts ih =>
    have ht : countOcc MARKER t = 0 := h t (List.mem_cons_self t ts)
    have hts : ∀ u ∈ ts, countOcc MARKER u = 0 :=
      fun u hu => h u (List.mem_cons_of_mem t hu)
    show countOcc MARKER ((t ++ SEP) ++ variantA_spec ts) = ts.length + 1
    rw [countOcc_marker_block, ht, ih hts]
    omega

/-! ## Loop refinements: accumulator loops versus declarative layouts -/

theorem writeLoopA_eq (ts : List Text) :
    ∀ buf, writeLoopA buf ts = buf ++ variantA_spec ts := by
  induction ts with
  | nil => intro buf; simp [writeLoopA, variantA_spec]
  | cons t ts ih =>
    intro buf
    show writeLoopA (buf ++ (t ++ SEP)) ts = buf ++ ((t ++ SEP) ++ variantA_spec ts)
    rw [ih, List.append_assoc]

theorem extract_prd_eq (old : Text) (ts : List Text) :
    extract_prd old ts = variantA_spec ts := by
  rw [extract_prd, openTruncate, writeLoopA_eq]
  rfl

theorem variantA_spec_append (a : List Text) :
    ∀ b, variantA_spec (a ++ b) = variantA_spec a ++ variantA_spec b := by
  induction a with
  | nil => intro b; rfl
  | cons t a' ih =>
    intro b
    show (t ++ SEP) ++ variantA_spec (a' ++ b) = ((t ++ SEP) ++ variantA_spec a') ++ _
    rw [ih]
    simp [List.append_assoc]

theorem writeLoopB_eq (ts : List Text) :
    ∀ buf i, writeLoopB buf i ts = buf ++ variantB_specFrom (i + 1) ts := by
  induction ts with
  | nil => intro buf i; simp [writeLoopB, variantB_specFrom]
  | cons t ts ih =>
    intro buf i
    show writeLoopB ((buf ++ headerB (i + 1)) ++ t) (i + 1) ts =
      buf ++ ((headerB (i + 1) ++ t) ++ variantB_specFrom (i + 1 + 1) ts)
    rw [ih]
    simp [List.append_assoc]

theorem extract_prd2_eq (old : Text) (ts : List Text) :
    extract_prd2 old ts = variantB_spec ts := by
  rw [extract_prd2, openTruncate, variantB_spec, writeLoopB_eq]
  rfl

/-! ## Header scanning -/

theorem headerAt_cons_of_ne (c : Char) (s : Text) (h : ('=' == c) = false) :
    headerAt (c :: s) = none := by
  have : HP.isPrefixOf (c :: s) = false := by
    show List.isPrefixOf ('=' :: ['=','=',' ','P','A','G','E',' ']) (c :: s) = false
    rw [isPrefixOf_cons_cons, h, Bool.false_and]
  rw [headerAt, this]
  simp

theorem headerAt_eq_sp (r : Text) : headerAt ('=' :: ' ' :: r) = none := by
  have : HP.isPrefixOf ('=' :: ' ' :: r) = false := by
    show List.isPrefixOf ('=' :: '=' :: ['=',' ','P','A','G','E',' ']) _ = false
    rw [isPrefixOf_cons_cons, isPrefixOf_cons_cons,
      show ('=' == ' ') = false from rfl, Bool.false_and, Bool.and_false]
  rw [headerAt, this]
  simp

theorem headerAt_eq_eq_sp (r : Text) : headerAt ('=' :: '=' :: ' ' :: r) = none := by
  have : HP.isPrefixOf ('=' :: '=' :: ' ' :: r) = false := by
    show List.isPrefixOf ('=' :: '=' :: '=' :: [' ','P','A','G','E',' ']) _ = false
    rw [isPrefixOf_cons_cons, isPrefixOf_cons_cons, isPrefixOf_cons_cons,
      show ('=' == ' ') = false from rfl, Bool.false_and, Bool.and_false,
      Bool.and_false]
  rw [headerAt, this]
  simp

/-- A header pattern contains no newline, so scanning `x ++ '\n' :: y` at a
position inside `x` is the same as scanning `x` alone. -/
theorem headerAt_append_cons (x y : Text) :
    headerAt (x ++ '\n' :: y) = headerAt x := by
  have hnlHP : '\n' ∉ HP := by decide
  have hnl4 : '\n' ∉ TAIL4 := by decide
  cases hp : HP.isPrefixOf x with
  | false =>
    have hfull : HP.isPrefixOf (x ++ '\n' :: y) = false := by
      rw [isPrefixOf_append_cons HP '\n' hnlHP x y, hp]
    rw [headerAt, headerAt, hfull, hp]
    simp
  | true =>
    obtain ⟨x', rfl⟩ := eq_append_of_isPrefixOf HP x hp
    rw [List.append_assoc]
    have hd9 : ∀ z : Text, ((HP ++ z).drop 9) = z :=
      fun z => List.drop_left' (by rfl)
    have hds : (x' ++ '\n' :: y).takeWhile Char.isDigit =
        x'.takeWhile Char.isDigit :=
      takeWhile_append_cons Char.isDigit '\n' (by decide) x' y
    have hk : (x'.takeWhile Char.isDigit).length ≤ x'.length :=
      length_takeWhile_le' _ x'
    have hdrop : (x' ++ '\n' :: y).drop (x'.takeWhile Char.isDigit).length
        = x'.drop (x'.takeWhile Char.isDigit).length ++ '\n' :: y :=
      List.drop_append_of_le_length hk
    rw [headerAt, headerAt, isPrefixOf_append_self, isPrefixOf_append_self,
      hd9, hd9, hds, hdrop,
      isPrefixOf_append_cons TAIL4 '\n' hnl4]

theorem findHeaders_nil : findHeaders [] = [] := rfl

theorem findHeaders_cons (c : Char) (s : Text) :
    findHeaders (c :: s) =
      (match headerAt (c :: s) with
       | some n => [n]
       | none => []) ++ findHeaders s := rfl

/-- Header matches never span a newline, so the matches of `a ++ '\n' :: b`
are the matches of `a` followed by those of `b`. -/
theorem findHeaders_append_cons (a b : Text) :
    findHeaders (a ++ '\n' :: b) = findHeaders a ++ findHeaders b := by
  induction a with
  | nil =>
    rw [List.nil_append, findHeaders_cons,
      headerAt_cons_of_ne '\n' b (by decide), findHeaders_nil]
  | cons c a' ih =>
    rw [List.cons_append, findHeaders_cons, ih,
      show c :: (a' ++ '\n' :: b) = (c :: a') ++ '\n' :: b from rfl,
      headerAt_append_cons (c :: a') b, findHeaders_cons, List.append_assoc]

/-- No header match starts inside a digit run followed by the ` ===`
closing: every position's head character rules the match out. -/
theorem findHeaders_digits_tail (D : Text) (hD : ∀ c ∈ D, c.isDigit = true) :
    findHeaders (D ++ TAIL4) = [] := by
  induction D with
  | nil => decide
  | cons d D' ih =>
    have hd : d.isDigit = true := hD d (List.mem_cons_self d D')
    have hne : ('=' == d) = false := by
      cases h : ('=' == d) with
      | false => rfl
      | true =>
        rw [beq_iff_eq] at h
        rw [← h] at hd
        exact absurd hd (by decide)
    rw [List.cons_append, findHeaders_cons,
      headerAt_cons_of_ne d (D' ++ TAIL4) hne,
      ih (fun c hc => hD c (List.mem_cons_of_mem d hc))]
    rfl

/-- A well-formed header body `=== PAGE <digits> ===` is matched at its
start position and yields the parsed number. -/
theorem headerAt_header_body (D : Text) (hne : D ≠ [])
    (hD : ∀ c ∈ D, c.isDigit = true) :
    headerAt (HP ++ (D ++ TAIL4)) = some (parseDigits D) := by
  have hd9 : ((HP ++ (D ++ TAIL4)).drop 9) = D ++ TAIL4 :=
    List.drop_left' (by rfl)
  have hds : (D ++ TAIL4).takeWhile Char.isDigit = D := by
    rw [show TAIL4 = ' ' :: ['=','=','='] from rfl,
      takeWhile_append_cons Char.isDigit ' ' (by decide) D ['=','=','='],
      takeWhile_of_all Char.isDigit D hD]
  have hdrop : (D ++ TAIL4).drop D.length = TAIL4 := List.drop_left D TAIL4
  rw [headerAt, isPrefixOf_append_self, hd9, hds, hdrop, isPrefixOf_refl]
  simp [hne]

/-- Scanning a full header body finds exactly its own match: the eight
interior positions and the closing ` ===` yield nothing. -/
theorem findHeaders_header_body (D : Text) (hne : D ≠ [])
    (hD : ∀ c ∈ D, c.isDigit = true) :
    findHeaders (HP ++ (D ++ TAIL4)) = [parseDigits D] := by
  rw [show HP ++ (D ++ TAIL4) =
      '=' :: ('=' :: '=' :: ' ' :: ('P' :: 'A' :: 'G' :: 'E' :: ' ' ::
        (D ++ TAIL4))) from rfl,
    findHeaders_cons,
    show ('=' :: ('=' :: '=' :: ' ' :: ('P' :: 'A' :: 'G' :: 'E' :: ' ' ::
      (D ++ TAIL4)))) = HP ++ (D ++ TAIL4) from rfl,
    headerAt_header_body D hne hD]
  rw [findHeaders_cons, headerAt_eq_eq_sp, findHeaders_cons, headerAt_eq_sp,
    findHeaders_cons, headerAt_cons_of_ne ' ' _ (by decide),
    findHeaders_cons, headerAt_cons_of_ne 'P' _ (by decide),
    findHeaders_cons, headerAt_cons_of_ne 'A' _ (by decide),
    findHeaders_cons, headerAt_cons_of_ne 'G' _ (by decide),
    findHeaders_cons, headerAt_cons_of_ne 'E' _ (by decide),
    findHeaders_cons, headerAt_cons_of_ne ' ' _ (by decide),
    findHeaders_digits_tail D hD]
  rfl

theorem findHeaders_cons_none (c : Char) (s : Text)
    (h : headerAt (c :: s) = none) : findHeaders (c :: s) = findHeaders s := by
  rw [findHeaders_cons, h]
  rfl

theorem findHeaders_cons_some (c : Char) (s : Text) (n : Nat)
    (h : headerAt (c :: s) = some n) : findHeaders (c :: s) = n :: findHeaders s := by
  rw [findHeaders_cons, h]
  rfl

/-- The scan of the variant B layout starting at page number `k`: one
match per page, numbered consecutively, provided the page texts contain no
header-shaped substring of their own. -/
theorem findHeaders_specFrom (ts : List Text) :
    ∀ k, (∀ t ∈ ts, findHeaders t = []) →
      findHeaders (variantB_specFrom k ts) = List.range' k ts.length := by
  induction ts with
  | nil => intro k _; rfl
  | cons t ts ih =>
    intro k h
    have ht : findHeaders t = [] := h t (List.mem_cons_self t ts)
    have hts : ∀ u ∈ ts, findHeaders u = [] :=
      fun u hu => h u (List.mem_cons_of_mem t hu)
    have hshape : variantB_specFrom k (t :: ts) =
        '\n' :: ((HP ++ (natDecimal k ++ TAIL4)) ++
          '\n' :: (t ++ variantB_specFrom (k + 1) ts)) := by
      show (headerB k ++ t) ++ variantB_specFrom (k + 1) ts = _
      simp [headerB, List.append_assoc]
    rw [hshape, findHeaders_cons_none _ _ (headerAt_cons_of_ne '\n' _ (by decide)),
      findHeaders_append_cons,
      findHeaders_header_body (natDecimal k) (natDecimal_ne_nil k)
        (natDecimal_digits k),
      parseDigits_natDecimal]
    cases ts with
    | nil =>
      rw [show variantB_specFrom (k + 1) [] = [] from rfl, List.append_nil, ht]
      rfl
    | cons t' ts' =>
      have hW : variantB_specFrom (k + 1) (t' :: ts') =
          '\n' :: ((((HP ++ (natDecimal (k + 1) ++ TAIL4)) ++ ['\n']) ++ t') ++
            variantB_specFrom (k + 2) ts') := by
        show (headerB (k + 1) ++ t') ++ variantB_specFrom (k + 2) ts' = _
        simp [headerB, List.append_assoc]
      have htail := ih (k + 1) hts
      rw [hW] at htail
      rw [hW, findHeaders_append_cons, ht, List.nil_append,
        ← findHeaders_cons_none '\n'
          ((((HP ++ (natDecimal (k + 1) ++ TAIL4)) ++ ['\n']) ++ t') ++
            variantB_specFrom (k + 2) ts')
          (headerAt_cons_of_ne '\n' _ (by decide)),
        htail]
      simp [List.range'_succ]

/-! ## Variant C: the per-page file map -/

theorem pageFileName_injective : Function.Injective pageFileName := by
  intro m n h
  rw [pageFileName, pageFileName] at h
  have h1 := List.append_cancel_right h
  have h2 := List.append_cancel_left h1
  exact natDecimal_injective h2

theorem fsWrite_same (fs : FS) (name content : Text) :
    fsWrite fs name content name = some content := by
  rw [fsWrite]
  simp

theorem fsWrite_other (fs : FS) (name content k : Text) (h : k ≠ name) :
    fsWrite fs name content k = fs k := by
  rw [fsWrite]
  simp [h]

/-- Frame property of the per-page loop: any name different from every
`prd_page_<j>.md` the loop writes (for `j` from `i+1` to `i + N`) keeps
its previous content. -/
theorem writeLoopC_frame (ts : List Text) :
    ∀ fs i name, (∀ j, i < j → j ≤ i + ts.length → name ≠ pageFileName j) →
      writeLoopC fs i ts name = fs name := by
  induction ts with
  | nil => intro fs i name _; rfl
  | cons t ts ih =>
    intro fs i name h
    simp only [List.length_cons] at h
    show writeLoopC (fsWrite fs (pageFileName (i + 1)) (pageFileContent t))
      (i + 1) ts name = fs name
    rw [ih _ (i + 1) name (fun j h1 h2 => h j (by omega) (by omega)),
      fsWrite_other _ _ _ _ (h (i + 1) (by omega) (by omega))]

/-- Content property of the per-page loop: the file written for page `n`
holds the byte-order mark followed by that page's text. -/
theorem writeLoopC_content (ts : List Text) :
    ∀ fs i n, i < n → n ≤ i + ts.length →
      writeLoopC fs i ts (pageFileName n) =
        (ts[n - i - 1]?).map pageFileContent := by
  induction ts with
  | nil =>
    intro fs i n h1 h2
    simp only [List.length_nil] at h2
    omega
  | cons t ts ih =>
    intro fs i n h1 h2
    simp only [List.length_cons] at h2
    show writeLoopC (fsWrite fs (pageFileName (i + 1)) (pageFileContent t))
      (i + 1) ts (pageFileName n) = _
    by_cases hcase : n = i + 1
    · subst hcase
      have hfr : ∀ j, i + 1 < j → j ≤ i + 1 + ts.length →
          pageFileName (i + 1) ≠ pageFileName j := by
        intro j hj _ contra
        have := pageFileName_injective contra
        omega
      rw [writeLoopC_frame ts _ (i + 1) _ hfr, fsWrite_same]
      have h0 : i + 1 - i - 1 = 0 := by omega
      rw [h0, List.getElem?_cons_zero]
      rfl
    · have hgt : i + 1 < n := by omega
      rw [ih _ (i + 1) n hgt (by omega)]
      have hidx : n - i - 1 = (n - (i + 1) - 1) + 1 := by omega
      rw [hidx, List.getElem?_cons_succ]

/-- Re-running the per-page loop over the directory it just produced
rewrites every page file with identical content and touches nothing else. -/
theorem writeLoopC_idem (ts : List Text) (fs : FS) (i : Nat) :
    writeLoopC (writeLoopC fs i ts) i ts = writeLoopC fs i ts := by
  funext name
  by_cases h : ∃ n, i < n ∧ n ≤ i + ts.length ∧ name = pageFileName n
  · obtain ⟨n, h1, h2, rfl⟩ := h
    rw [writeLoopC_content ts _ i n h1 h2, writeLoopC_content ts _ i n h1 h2]
  · push_neg at h
    rw [writeLoopC_frame ts _ i name (fun j hj1 hj2 => h j hj1 hj2)]

/-! ## Error propagation -/

theorem runAEx_run (oks : List Text) :
    ∀ (e : Text) (rest : List (Except Text Text)) (buf : Text),
      runAEx buf (oks.map Except.ok ++ Except.error e :: rest) =
        (buf ++ variantA_spec oks, some e) := by
  induction oks with
  | nil =>
    intro e rest buf
    show (buf, some e) = (buf ++ variantA_spec [], some e)
    rw [show variantA_spec [] = [] from rfl, List.append_nil]
  | cons t oks ih =>
    intro e rest buf
    show runAEx (buf ++ (t ++ SEP)) (oks.map Except.ok ++ Except.error e :: rest) =
      (buf ++ ((t ++ SEP) ++ variantA_spec oks), some e)
    rw [ih e rest (buf ++ (t ++ SEP)), List.append_assoc]

theorem runCEx_run (oks : List Text) :
    ∀ (e : Text) (rest : List (Except Text Text)) (fs : FS) (i : Nat),
      runCEx fs i (oks.map Except.ok ++ Except.error e :: rest) =
        (writeLoopC fs i oks, some e) := by
  induction oks with
  | nil => intro e rest fs i; rfl
  | cons t oks ih =>
    intro e rest fs i
    show runCEx (fsWrite fs (pageFileName (i + 1)) (pageFileContent t)) (i + 1)
      (oks.map Except.ok ++ Except.error e :: rest) = _
    rw [ih e rest _ (i + 1)]
    rfl

/-! ## Claim theorems -/

/-- C1 (counterexample): for the one-page document whose page text is
`"a"`, the variant A output contains 1 occurrence of the marker, while the
claim predicts N - 1 = 0. -/
theorem claimC1_counterexample :
    countOcc MARKER (extract_prd [] [['a']]) = 1 ∧
      ([['a']] : List Text).length - 1 = 0 := by
  decide

/-- C1 (amended): `extract_prd.py` writes the separator after every page,
so for an N-page document whose page texts do not themselves contain the
marker, the output holds exactly N occurrences of `---PAGE BREAK---`
(not N - 1). -/
theorem claimC1_marker_count (old : Text) (ts : List Text)
    (h : ∀ t ∈ ts, countOcc MARKER t = 0) :
    countOcc MARKER (extract_prd old ts) = ts.length := by
  rw [extract_prd_eq, countOcc_marker_variantA ts h]

/-- C1 witness: the amended count theorem evaluated on a concrete
two-page document. -/
theorem claimC1_marker_count_witness :
    (∀ t ∈ ([['a'], ['b', 'c']] : List Text), countOcc MARKER t = 0) ∧
      countOcc MARKER (extract_prd ['x'] [['a'], ['b', 'c']]) = 2 :=
  ⟨by decide, claimC1_marker_count ['x'] [['a'], ['b', 'c']] (by decide)⟩

/-- C2: the variant A output is exactly the concatenation, in page order,
of `<page text> ++ '\n\n---PAGE BREAK---\n\n'`, and the previous content
of the destination file (`old`) is discarded entirely. -/
theorem claimC2_concatenated_layout (old : Text) (ts : List Text) :
    extract_prd old ts = variantA_spec ts :=
  extract_prd_eq old ts

/-- C3: the variant B output is exactly the concatenation, in page order,
of `'\n=== PAGE <n> ===\n' ++ <page text>` for 1-based `n` with no
trailing separator, and — when no page text contains a header-shaped
substring — scanning the output finds exactly the headers
`=== PAGE k ===` for `k = 1..N`, in strictly ascending order. -/
theorem claimC3_headered_layout (old : Text) (ts : List Text) :
    extract_prd2 old ts = variantB_spec ts ∧
      ((∀ t ∈ ts, findHeaders t = []) →
        findHeaders (extract_prd2 old ts) = List.range' 1 ts.length) := by
  refine ⟨extract_prd2_eq old ts, fun h => ?_⟩
  rw [extract_prd2_eq, variantB_spec, findHeaders_specFrom ts 1 h]

/-- C3 witness: the layout and scan evaluated on a concrete three-page
document. -/
theorem claimC3_headered_layout_witness :
    (∀ t ∈ ([['I'], ['B'], ['E']] : List Text), findHeaders t = []) ∧
      findHeaders (extract_prd2 [] [['I'], ['B'], ['E']]) = [1, 2, 3] :=
  ⟨by decide, by
    have h := (claimC3_headered_layout [] [['I'], ['B'], ['E']]).2 (by decide)
    rwa [show List.range' 1 ([['I'], ['B'], ['E']] : List Text).length =
      [1, 2, 3] from rfl] at h⟩

/-- C4: variant C writes, for every 1-based page number `n ≤ N`, the file
`prd_page_<n>.md` holding the byte-order mark followed by exactly that
page's text; and any name whose content changed is one of those N page
files, so exactly N files are created. -/
theorem claimC4_per_page_files (fs : FS) (ts : List Text) :
    (∀ n, 1 ≤ n → n ≤ ts.length →
      extract_prd_pages fs ts (pageFileName n) =
        (ts[n - 1]?).map pageFileContent) ∧
    (∀ name, extract_prd_pages fs ts name ≠ fs name →
      ∃ m, 1 ≤ m ∧ m ≤ ts.length ∧ name = pageFileName m) := by
  constructor
  · intro n h1 h2
    rw [extract_prd_pages, writeLoopC_content ts fs 0 n (by omega) (by omega),
      Nat.sub_zero]
  · intro name h
    by_contra hno
    push_neg at hno
    exact h (writeLoopC_frame ts fs 0 name
      (fun j h1 h2 => hno j (by omega) (by omega)))

/-- C4 witness: the per-page content theorem evaluated at page 2 of a
concrete two-page document. -/
theorem claimC4_per_page_files_witness :
    extract_prd_pages (fun _ => none) [['a'], ['b']] (pageFileName 2) =
      some (pageFileContent ['b']) := by
  have h := (claimC4_per_page_files (fun _ => none) [['a'], ['b']]).1 2
    (by decide) (by decide)
  rw [h]
  decide

/-- C5: invariant — for each variant the number of Output Artifacts
(separator occurrences for A, header matches for B, page files for C)
equals the number of pages, in page order, with no page skipped or
duplicated. -/
theorem claimC5_artifact_count_invariant (old : Text) (ts : List Text) (fs : FS) :
    ((∀ t ∈ ts, countOcc MARKER t = 0) →
      countOcc MARKER (extract_prd old ts) = ts.length) ∧
    ((∀ t ∈ ts, findHeaders t = []) →
      findHeaders (extract_prd2 old ts) = List.range' 1 ts.length) ∧
    (∀ n, 1 ≤ n → n ≤ ts.length →
      extract_prd_pages fs ts (pageFileName n) =
        (ts[n - 1]?).map pageFileContent) ∧
    (∀ name, (∀ m, 1 ≤ m → m ≤ ts.length → name ≠ pageFileName m) →
      extract_prd_pages fs ts name = fs name) := by
  refine ⟨?_, ?_, ?_, ?_⟩
  · intro h
    rw [extract_prd_eq, countOcc_marker_variantA ts h]
  · intro h
    rw [extract_prd2_eq, variantB_spec, findHeaders_specFrom ts 1 h]
  · intro n h1 h2
    rw [extract_prd_pages, writeLoopC_content ts fs 0 n (by omega) (by omega),
      Nat.sub_zero]
  · intro name h
    exact writeLoopC_frame ts fs 0 name (fun j h1 h2 => h j (by omega) (by omega))

/-- C5 witness: the invariant evaluated on a concrete two-page document
for variants A and B. -/
theorem claimC5_artifact_count_invariant_witness :
    countOcc MARKER (extract_prd [] [['a'], ['b']]) = 2 ∧
      findHeaders (extract_prd2 [] [['a'], ['b']]) = List.range' 1 2 :=
  ⟨(claimC5_artifact_count_invariant [] [['a'], ['b']] (fun _ => none)).1
      (by decide),
    (claimC5_artifact_count_invariant [] [['a'], ['b']] (fun _ => none)).2.1
      (by decide)⟩

/-- C6: a 0-page document yields an empty output file for variants A and B
and leaves the destination directory of variant C untouched; a page with
no extractable text contributes an empty string — variant A still writes
its separator, and variant C writes a file holding only the byte-order
mark — rather than failing (all writers are total functions). -/
theorem claimC6_empty_boundaries (old : Text) (fs : FS) :
    extract_prd old [] = [] ∧
    extract_prd2 old [] = [] ∧
    (∀ name, extract_prd_pages fs [] name = fs name) ∧
    (∀ ts₁ ts₂ : List Text, extract_prd old (ts₁ ++ [] :: ts₂) =
      (variantA_spec ts₁ ++ SEP) ++ variantA_spec ts₂) ∧
    (∀ (ts : List Text) n, 1 ≤ n → n ≤ ts.length → ts[n - 1]? = some [] →
      extract_prd_pages fs ts (pageFileName n) = some BOM) := by
  refine ⟨rfl, rfl, fun name => rfl, ?_, ?_⟩
  · intro ts₁ ts₂
    rw [extract_prd_eq, variantA_spec_append,
      show variantA_spec ([] :: ts₂) = ([] ++ SEP) ++ variantA_spec ts₂ from rfl,
      List.nil_append, ← List.append_assoc]
  · intro ts n h1 h2 hempty
    rw [extract_prd_pages, writeLoopC_content ts fs 0 n (by omega) (by omega),
      show n - 0 - 1 = n - 1 from rfl, hempty]
    rfl

/-- C6 witness: the boundary behavior evaluated on a concrete document
whose single page has no text. -/
theorem claimC6_empty_boundaries_witness :
    extract_prd_pages (fun _ => none) [[]] (pageFileName 1) = some BOM :=
  (claimC6_empty_boundaries [] (fun _ => none)).2.2.2.2 [[]] 1
    (by decide) (by decide) (by decide)

/-- C7: with deterministic extraction, re-running a variant produces
byte-for-byte identical output: the single-file variants ignore the
previous file content entirely, and re-running the per-page variant over
the directory it just produced changes nothing. -/
theorem claimC7_idempotent_rerun (oldA oldB : Text) (ts : List Text) (fs : FS) :
    extract_prd oldA ts = extract_prd oldB ts ∧
    extract_prd (extract_prd oldA ts) ts = extract_prd oldA ts ∧
    extract_prd2 oldA ts = extract_prd2 oldB ts ∧
    extract_prd2 (extract_prd2 oldA ts) ts = extract_prd2 oldA ts ∧
    extract_prd_pages (extract_prd_pages fs ts) ts = extract_prd_pages fs ts := by
  refine ⟨?_, ?_, ?_, ?_, writeLoopC_idem ts fs 0⟩
  · rw [extract_prd_eq, extract_prd_eq]
  · rw [extract_prd_eq, extract_prd_eq]
  · rw [extract_prd2_eq, extract_prd2_eq]
  · rw [extract_prd2_eq, extract_prd2_eq]

/-- C8: no failure is caught: a failing page step ends the run with that
error, the pages already processed remain written (variant A's buffer
holds exactly their blocks; variant C's directory holds exactly their
files), and the steps after the failure are never executed. -/
theorem claimC8_error_propagation (oks : List Text) (e : Text)
    (rest : List (Except Text Text)) (old : Text) (fs : FS) :
    runAEx (openTruncate old) (oks.map Except.ok ++ Except.error e :: rest) =
      (variantA_spec oks, some e) ∧
    runCEx fs 0 (oks.map Except.ok ++ Except.error e :: rest) =
      (extract_prd_pages fs oks, some e) := by
  constructor
  · show runAEx [] (oks.map Except.ok ++ Except.error e :: rest) = _
    rw [runAEx_run oks e rest [], List.nil_append]
  · exact runCEx_run oks e rest fs 0

/-- C9: variant C writes only the files `prd_page_<n>.md` for `n = 1..N`;
any other name — in particular a stale `prd_page_<m>.md` with `m > N` from
an earlier run — keeps its previous content and is not deleted. -/
theorem claimC9_frame (ts : List Text) (fs : FS) :
    (∀ name, (∀ k, 1 ≤ k → k ≤ ts.length → name ≠ pageFileName k) →
      extract_prd_pages fs ts name = fs name) ∧
    (∀ m, ts.length < m →
      extract_prd_pages fs ts (pageFileName m) = fs (pageFileName m)) := by
  constructor
  · intro name h
    exact writeLoopC_frame ts fs 0 name (fun j h1 h2 => h j (by omega) (by omega))
  · intro m hm
    apply writeLoopC_frame
    intro j h1 h2 contra
    have := pageFileName_injective contra
    omega

/-- C9 witness: a stale page-3 file survives a two-page run unchanged. -/
theorem claimC9_frame_witness :
    ([['a'], ['b']] : List Text).length < 3 ∧
      extract_prd_pages (fsWrite (fun _ => none) (pageFileName 3) ['o'])
        [['a'], ['b']] (pageFileName 3) = some ['o'] := by
  refine ⟨by decide, ?_⟩
  have h := (claimC9_frame [['a'], ['b']]
    (fsWrite (fun _ => none) (pageFileName 3) ['o'])).2 3 (by decide)
  rw [h, fsWrite_same]

/-- C10: the variant A encoding is not injective — a one-page document
whose page text embeds the separator sequence produces the same output
file as the corresponding two-page document. -/
theorem claimC10_not_injective :
    ([('a' :: SEP) ++ ['b']] : List Text) ≠ [['a'], ['b']] ∧
      extract_prd [] [('a' :: SEP) ++ ['b']] = extract_prd [] [['a'], ['b']] := by
  decide

end Vex
